import Mathlib

/-!
Verification development for the FEFF input-file module
(`pymatgen/io/feff/inputs.py`): a shallow embedding of the tag store
(`FeffTags`: value coercion `proc_val`, `__setitem__`, `diff`, `__add__`)
and of the atomic shell builder (`FeffAtoms.get_string`), together with
theorems about the claims made by the design specification.

Modelling conventions:
* Python strings are `String`; Python floats are modelled as exact
  rationals `ℚ` (the source never branches on float rounding in the
  properties considered here, except for the 6-decimal fixed formatting,
  which is modelled exactly by `format6` below);
* Python exceptions are `Except PyErr`; `ValueError` is `PyErr.valueError`;
* a Python `dict` is an association list in insertion order, with
  assignment replacing the value of an existing key in place.
-/

/-- The characters matched by the regex class `\s` (and stripped by
`str.strip()`) for ASCII text. -/
def isWS (c : Char) : Bool :=
  c = ' ' || c = '\t' || c = '\n' || c = '\r' || c = '\x0b' || c = '\x0c'

/-- A regex word character `\w` = `[a-zA-Z0-9_]` (ASCII). -/
def isWordChar (c : Char) : Bool :=
  c.isAlphanum || c = '_'

/-- Python `str.strip()`: remove leading and trailing whitespace. -/
def pyStrip (s : String) : String :=
  String.mk (((s.data.dropWhile isWS).reverse.dropWhile isWS).reverse)

/-- Python `str.capitalize()`: first character upper-cased, all remaining
characters lower-cased (ASCII behaviour). -/
def pyCapitalize (s : String) : String :=
  match s.data with
  | [] => ""
  | c :: rest => String.mk (c.toUpper :: rest.map Char.toLower)

/-- `re.split("\s+", s)`: the pieces of `s` between maximal whitespace
runs; a leading (trailing) whitespace run contributes an empty first
(last) piece, and `re.split("\s+", "")` is `[""]`. -/
def splitWSList : List Char → List String
  | [] => [""]
  | c :: cs =>
    if isWS c then
      match cs with
      | [] => ["", ""]
      | c2 :: _ =>
        if isWS c2 then splitWSList cs else "" :: splitWSList cs
    else
      match splitWSList cs with
      | [] => [String.mk [c]]
      | t :: ts => (String.mk (c :: t.data)) :: ts

/-- `re.split("\s+", val)` on a string. -/
def splitWS (s : String) : List String := splitWSList s.data

/-- A scalar produced by `smart_int_or_float`: a Python `int` or `float`. -/
inductive Scalar where
  | int : ℤ → Scalar
  | float : ℚ → Scalar
deriving DecidableEq

/-- The values a FEFF tag can hold after coercion by `FeffTags.proc_val`. -/
inductive FeffVal where
  | int : ℤ → FeffVal
  | float : ℚ → FeffVal
  | bool : Bool → FeffVal
  | str : String → FeffVal
  | list : List Scalar → FeffVal
deriving DecidableEq

/-- The one kind of exception raised (and caught) inside `proc_val`. -/
inductive PyErr where
  | valueError : PyErr
deriving DecidableEq

instance {ε α : Type} [DecidableEq ε] [DecidableEq α] : DecidableEq (Except ε α) :=
  fun a b =>
    match a, b with
    | .ok x, .ok y =>
      if h : x = y then isTrue (by rw [h])
      else isFalse (fun hc => h (Except.ok.inj hc))
    | .error x, .error y =>
      if h : x = y then isTrue (by rw [h])
      else isFalse (fun hc => h (Except.error.inj hc))
    | .ok _, .error _ => isFalse (fun hc => Except.noConfusion hc)
    | .error _, .ok _ => isFalse (fun hc => Except.noConfusion hc)

/-- Numeric value of a digit run (the run is known to be all digits). -/
def digitsToNat (l : List Char) : ℕ :=
  l.foldl (fun acc c => acc * 10 + (c.toNat - 48)) 0

/-- Python `int(s)`: optional surrounding whitespace, an optional sign,
then a nonempty run of digits. -/
def parseInt? (s : String) : Option ℤ :=
  let cs := ((s.data.dropWhile isWS).reverse.dropWhile isWS).reverse
  match cs with
  | '+' :: ds =>
    if ds ≠ [] ∧ ds.all Char.isDigit then some (digitsToNat ds) else none
  | '-' :: ds =>
    if ds ≠ [] ∧ ds.all Char.isDigit then some (-(digitsToNat ds : ℤ)) else none
  | ds =>
    if ds ≠ [] ∧ ds.all Char.isDigit then some (digitsToNat ds) else none

/-- Mantissa of a Python float literal: `digits`, `digits.digits`,
`digits.` or `.digits`; returns its value and the unconsumed rest. -/
def parseMant? (cs : List Char) : Option (ℚ × List Char) :=
  let ip := cs.takeWhile Char.isDigit
  let r1 := cs.drop ip.length
  match r1 with
  | '.' :: r2 =>
    let fp := r2.takeWhile Char.isDigit
    let r3 := r2.drop fp.length
    if ip = [] ∧ fp = [] then none
    else some (Rat.divInt (digitsToNat ip * 10 ^ fp.length + digitsToNat fp)
                 (10 ^ fp.length), r3)
  | _ => if ip = [] then none else some ((digitsToNat ip : ℚ), r1)

/-- Exponent part of a Python float literal (`e`/`E`, optional sign,
nonempty digits), or `0` when absent; `none` on malformed input. -/
def parseExp? : List Char → Option ℤ
  | [] => some 0
  | c :: r =>
    if c = 'e' ∨ c = 'E' then
      match r with
      | '+' :: ds =>
        if ds ≠ [] ∧ ds.all Char.isDigit then some (digitsToNat ds) else none
      | '-' :: ds =>
        if ds ≠ [] ∧ ds.all Char.isDigit then some (-(digitsToNat ds : ℤ)) else none
      | ds =>
        if ds ≠ [] ∧ ds.all Char.isDigit then some (digitsToNat ds) else none
    else none

/-- Scale a rational by a power of ten, using only kernel-computable
`Rat` operations. -/
def qScalePow10 (m : ℚ) (e : ℤ) : ℚ :=
  match e with
  | .ofNat k => Rat.divInt (m.num * 10 ^ k) m.den
  | .negSucc k => Rat.divInt m.num (m.den * 10 ^ (k + 1))

/-- Python `float(s)` on decimal literals: optional surrounding
whitespace, optional sign, mantissa, optional exponent.  (The special
values `inf`/`nan` are not modelled; no claim involves them.) -/
def parseFloat? (s : String) : Option ℚ :=
  let cs := ((s.data.dropWhile isWS).reverse.dropWhile isWS).reverse
  let signAndRest : (ℤ × List Char) :=
    match cs with
    | '+' :: r => (1, r)
    | '-' :: r => (-1, r)
    | r => (1, r)
  match parseMant? signAndRest.2 with
  | none => none
  | some (m, rest) =>
    match parseExp? rest with
    | none => none
    | some e => some (qScalePow10 (Rat.divInt (signAndRest.1 * m.num) m.den) e)

/-- `numstr.find(".") != -1 or numstr.lower().find("e") != -1`. -/
def hasDotOrE (s : String) : Bool :=
  s.data.any (fun c => c = '.' || c = 'e' || c = 'E')

/-- `smart_int_or_float` (inner helper of `proc_val`): a token containing
`.` or `e`/`E` is parsed as a float, anything else as an int; `none`
models the `ValueError` a failed parse raises. -/
def smartNum? (tok : String) : Option Scalar :=
  if hasDotOrE tok then (parseFloat? tok).map Scalar.float
  else (parseInt? tok).map Scalar.int

/-- `re.match("(\d+)\*([\d\.\-\+]+)", tok)`: a nonempty digit run, a `*`,
then a nonempty run over `[0-9.+-]`; any trailing characters are ignored
(the pattern is not anchored at the end).  Returns the repeat count and
the scalar text. -/
def matchRepeat (tok : String) : Option (ℕ × String) :=
  let cs := tok.data
  let ds := cs.takeWhile Char.isDigit
  if ds = [] then none
  else
    match cs.drop ds.length with
    | '*' :: rest =>
      let ss := rest.takeWhile (fun c => c.isDigit || c = '.' || c = '-' || c = '+')
      if ss = [] then none else some (digitsToNat ds, String.mk ss)
    | _ => none

/-- The scalars contributed by one whitespace-delimited token of a
list-capable value: a `count*scalar` token expands to `count` copies,
any other token is parsed as a single scalar. -/
def tokScalars? (tok : String) : Option (List Scalar) :=
  match matchRepeat tok with
  | some (cnt, sc) => (smartNum? sc).map (List.replicate cnt)
  | none => (smartNum? tok).map (fun x => [x])

/-- The list branch of `proc_val`: split on whitespace runs, expand every
token, concatenate.  `none` models the `ValueError` a failed scalar
parse raises. -/
def parseListVal (val : String) : Option (List Scalar) :=
  ((splitWS val).mapM tokScalars?).map List.flatten

/-- `re.search("^\W+([TtFf])", val)`: at least one leading non-word
character, then `T`/`t` (true) or `F`/`f` (false). -/
def boolSearch (val : String) : Option Bool :=
  let nw := val.data.takeWhile (fun c => !(isWordChar c))
  if nw.isEmpty then none
  else
    match val.data.drop nw.length with
    | [] => none
    | c :: _ =>
      if c = 'T' ∨ c = 't' then some true
      else if c = 'F' ∨ c = 'f' then some false
      else none

/-- `VALID_FEFF_TAGS` exactly as in the source, entry for entry.  The
source tuple contains the duplicates `"PRINT"` and `"DANES"`, and the
adjacent literals `"FPRIME" "MDFF"` are concatenated by Python into the
single entry `"FPRIMEMDFF"`. -/
def VALID_FEFF_TAGS : List String :=
  ["CONTROL", "PRINT", "ATOMS", "POTENTIALS", "RECIPROCAL",
   "REAL", "MARKER", "LATTICE", "TITLE", "RMULTIPLIER",
   "SGROUP", "COORDINATES", "EQUIVALENCE", "CIF", "CGRID",
   "CFAVERAGE", "OVERLAP", "EXAFS", "XANES", "ELNES", "EXELFS",
   "LDOS", "ELLIPTICITY", "MULTIPOLE", "POLARIZATION",
   "RHOZZP", "DANES", "FPRIME", "NRIXS", "XES", "XNCD",
   "XMCD", "XNCDCONTROL", "END", "KMESH", "PRINT", "EGRID",
   "DIMS", "AFOLP", "EDGE", "COMPTON", "DANES",
   "FPRIMEMDFF", "HOLE", "COREHOLE", "S02", "CHBROAD",
   "EXCHANGE", "FOLP", "NOHOLE", "RGRID", "SCF",
   "UNFREEZEF", "CHSHIFT", "DEBYE",
   "INTERSTITIAL", "CHWIDTH", "EGAP", "EPS0", "EXTPOT",
   "ION", "JUMPRM", "EXPOT", "SPIN", "LJMAX", "LDEC", "MPSE",
   "PLASMON", "RPHASES", "RSIGMA", "PMBSE", "TDLDA", "FMS",
   "DEBYA", "OPCONS", "PREP", "RESTART", "SCREEN", "SETE",
   "STRFACTORS", "BANDSTRUCTURE", "RPATH", "NLEG", "PCRITERIA",
   "SYMMETRY", "SS", "CRITERIA", "IORDER", "NSTAR", "ABSOLUTE",
   "CORRECTIONS", "SIG2", "SIG3", "MBCONV", "SFCONV", "RCONV",
   "SELF", "SFSE", "MAGIC"]

/-- `list_type_keys` of `proc_val`. -/
def list_type_keys : List String := VALID_FEFF_TAGS

/-- `boolean_type_keys` of `proc_val` (empty in the source). -/
def boolean_type_keys : List String := []

/-- `float_type_keys` of `proc_val`. -/
def float_type_keys : List String :=
  ["SCF", "EXCHANGE", "S02", "FMS", "XANES", "EXAFS", "RPATH", "LDOS"]

/-- `int_type_keys` of `proc_val`. -/
def int_type_keys : List String := ["PRINT", "CONTROL"]

/-- The list branch (`if key in list_type_keys`) of `proc_val`. -/
def listBranch (val : String) : Except PyErr FeffVal :=
  match parseListVal val with
  | some l => .ok (.list l)
  | none => .error .valueError

/-- The boolean branch of `proc_val`; an unmatched value raises
`ValueError` (inside the surrounding `try`). -/
def boolBranch (val : String) : Except PyErr FeffVal :=
  match boolSearch val with
  | some b => .ok (.bool b)
  | none => .error .valueError

/-- The float branch (`return float(val)`) of `proc_val`. -/
def floatBranch (val : String) : Except PyErr FeffVal :=
  match parseFloat? val with
  | some q => .ok (.float q)
  | none => .error .valueError

/-- The int branch (`return int(val)`) of `proc_val`. -/
def intBranch (val : String) : Except PyErr FeffVal :=
  match parseInt? val with
  | some z => .ok (.int z)
  | none => .error .valueError

/-- The body of the `try` block of `FeffTags.proc_val` (source lines
705-731): the four class checks in order — list-capable, boolean, float,
integer — where `.ok none` means the body fell through all four checks
without returning. -/
def procValBody (key val : String) : Except PyErr (Option FeffVal) :=
  if key ∈ list_type_keys then (listBranch val).map some
  else if key ∈ boolean_type_keys then (boolBranch val).map some
  else if key ∈ float_type_keys then (floatBranch val).map some
  else if key ∈ int_type_keys then (intBranch val).map some
  else .ok none

/-- `FeffTags.proc_val`: the `try` body, with `except ValueError` and the
trailing fall-through both returning `val.capitalize()`.  The result is
`Except` because a Python callable can in principle raise; this one
never does (see `proc_val_total_and_swallows`). -/
def proc_val (key val : String) : Except PyErr FeffVal :=
  match procValBody key val with
  | .ok (some v) => .ok v
  | .ok none => .ok (.str (pyCapitalize val))
  | .error _ => .ok (.str (pyCapitalize val))

/-- The error-catching wrapper applied to a single branch result:
an `ok` passes through, a `ValueError` is replaced by the capitalized
raw text (the `except ValueError` handler of `proc_val`). -/
def catchCap (val : String) (r : Except PyErr FeffVal) : Except PyErr FeffVal :=
  match r with
  | .ok v => .ok v
  | .error _ => .ok (.str (pyCapitalize val))

/-- Rational value of a scalar (used for Python `==`, where `1 == 1.0`). -/
def scalarToQ : Scalar → ℚ
  | .int z => (z : ℚ)
  | .float q => q

/-- Python `==` on two scalars: numeric comparison across `int`/`float`. -/
def scalarEq (a b : Scalar) : Bool := decide (scalarToQ a = scalarToQ b)

/-- The numeric view of a tag value, when it has one (`bool` is numeric
in Python: `True == 1`). -/
def feffValNumQ : FeffVal → Option ℚ
  | .int z => some (z : ℚ)
  | .float q => some q
  | .bool b => some (if b then 1 else 0)
  | .str _ => none
  | .list _ => none

/-- Python `==` on tag values: numeric values compare by value across
types, strings compare as strings, lists compare elementwise, and any
other cross-type comparison is `False`. -/
def pyEq (a b : FeffVal) : Bool :=
  match feffValNumQ a, feffValNumQ b with
  | some x, some y => decide (x = y)
  | _, _ =>
    match a, b with
    | .str s, .str t => s == t
    | .list l, .list m =>
      l.length == m.length && (l.zip m).all (fun p => scalarEq p.1 p.2)
    | _, _ => false

/-- Lookup in an association list (a Python `dict` in insertion order). -/
def alookup {α : Type} : List (String × α) → String → Option α
  | [], _ => none
  | (k, v) :: rest, key => if k = key then some v else alookup rest key

/-- A `FeffTags` store: a `dict` from tag name to coerced value. -/
abbrev FT : Type := List (String × FeffVal)

/-- Python `dict` assignment: replace the value of an existing key in
place, otherwise append the new pair at the end. -/
def dictInsert (l : List (String × FeffVal)) (k : String) (v : FeffVal) :
    List (String × FeffVal) :=
  if (alookup l k).isSome then
    l.map (fun p => if p.1 = k then (k, v) else p)
  else l ++ [(k, v)]

/-- `FeffTags.__setitem__` with a string value: both key and value are
stripped, the value is coerced by `proc_val`, and the pair is stored
(an unrecognised key only triggers a non-fatal warning, which carries no
state and is not modelled). -/
def setItemE (store : FT) (key val : String) : Except PyErr FT :=
  (proc_val (pyStrip key) (pyStrip val)).map
    (fun x => dictInsert store (pyStrip key) x)

/-- One side of an entry of the `diff` result: `none` is the sentinel
`"Default"` used for a key missing from one store. -/
abbrev DEntry : Type := String × (Option FeffVal × Option FeffVal)

/-- First loop of `FeffTags.diff`: classify every key of `self` as
`Same` (present in `other` with an equal value) or `Different`. -/
def diffLoop1 (other : List (String × FeffVal)) :
    List (String × FeffVal) → List (String × FeffVal) × List DEntry
  | [] => ([], [])
  | (k1, v1) :: rest =>
    let sd := diffLoop1 other rest
    match alookup other k1 with
    | none => (sd.1, (k1, (some v1, none)) :: sd.2)
    | some w =>
      if pyEq v1 w then ((k1, v1) :: sd.1, sd.2)
      else (sd.1, (k1, (some v1, some w)) :: sd.2)

/-- Whether a key occurs in a store. -/
def hasKeyFT (l : List (String × FeffVal)) (k : String) : Bool :=
  (alookup l k).isSome

/-- Whether a key occurs in a `Different` accumulator. -/
def hasKeyD (l : List DEntry) (k : String) : Bool :=
  l.any (fun e => e.1 == k)

/-- Second loop of `FeffTags.diff`: a key of `other` absent from the
`Same` group, the `Different` group and `self` is reported as different
with the `"Default"` sentinel on the `self` side. -/
def diffLoop2 (self s : List (String × FeffVal)) :
    List DEntry → List (String × FeffVal) → List DEntry
  | d, [] => d
  | d, (k2, v2) :: rest =>
    if ¬ hasKeyFT s k2 = true ∧ ¬ hasKeyD d k2 = true ∧ ¬ hasKeyFT self k2 = true
    then diffLoop2 self s (d ++ [(k2, (none, some v2))]) rest
    else diffLoop2 self s d rest

/-- `FeffTags.diff`: the `Same` group and the `Different` group. -/
def diffFT (self other : FT) : List (String × FeffVal) × List DEntry :=
  let sd := diffLoop1 other self
  (sd.1, diffLoop2 self sd.1 sd.2 other)

/-- The loop of `FeffTags.__add__` over `other`, with `params`
accumulating on top of a copy of `self`: a key held by `self` with a
`!=` value raises `ValueError`, otherwise the pair is assigned. -/
def addLoop (self : List (String × FeffVal)) :
    List (String × FeffVal) → List (String × FeffVal) →
    Except PyErr (List (String × FeffVal))
  | params, [] => .ok params
  | params, (k, v) :: rest =>
    match alookup self k with
    | some w =>
      if pyEq v w then addLoop self (dictInsert params k v) rest
      else .error .valueError
    | none => addLoop self (dictInsert params k v) rest

/-- `FeffTags.__add__` (merge): key-wise union with conflict detection. -/
def addFT (self other : FT) : Except PyErr FT :=
  addLoop self self other

/-- A site as consumed by the shell builder: species symbol and cartesian
position. -/
structure FSite where
  sym : String
  x : ℚ
  y : ℚ
  z : ℚ
deriving DecidableEq

/-- One row of the ATOMS shell table, as built by
`FeffAtoms.get_string`: formatted recentered coordinates, potential
index, species symbol, formatted distance, and sequence number.  The
coordinate and distance columns hold the `"{:f}".format(...)` strings,
exactly as the Python row does, because the sort key is column 5 as a
string. -/
structure Row where
  xs : String
  ys : String
  zs : String
  ipot : ℕ
  atm : String
  dist : String
  num : ℕ
deriving DecidableEq

/-- Exact subtraction on `ℚ` written out on numerator and denominator, so
that it evaluates inside the kernel (see `qsub_eq`). -/
def qsub (a b : ℚ) : ℚ :=
  Rat.divInt (a.num * b.den - b.num * a.den) (a.den * b.den)

/-- Exact addition on `ℚ` in kernel-computable form (see `qadd_eq`). -/
def qadd (a b : ℚ) : ℚ :=
  Rat.divInt (a.num * b.den + b.num * a.den) (a.den * b.den)

/-- Exact multiplication on `ℚ` in kernel-computable form (see
`qmul_eq`). -/
def qmul (a b : ℚ) : ℚ :=
  Rat.divInt (a.num * b.num) (a.den * b.den)

/-- Squared euclidean distance between two sites. -/
def sqdist (a b : FSite) : ℚ :=
  qadd (qadd (qmul (qsub a.x b.x) (qsub a.x b.x))
             (qmul (qsub a.y b.y) (qsub a.y b.y)))
       (qmul (qsub a.z b.z) (qsub a.z b.z))

/-- `re.sub(r"[^aA-zZ]+", "", s)`: drop every character outside the
regex class `aA-zZ`, i.e. keep exactly the code points 65..122. -/
def stripNonAlpha (s : String) : String :=
  String.mk (s.data.filter (fun c => decide (65 ≤ c.toNat ∧ c.toNat ≤ 122)))

/-- Decimal digits of a natural number, most significant first, via a
fuel argument so that the kernel can evaluate it (the fuel only needs to
dominate the digit count). -/
def natDigitsAux : ℕ → ℕ → List Char
  | 0, _ => []
  | fuel + 1, n =>
    if n < 10 then [Nat.digitChar n]
    else natDigitsAux fuel (n / 10) ++ [Nat.digitChar (n % 10)]

/-- Decimal digits of `n`, most significant first (`0` gives `['0']`). -/
def natDigits (n : ℕ) : List Char := natDigitsAux (n + 1) n

/-- The fractional part of a fixed 6-decimal rendering: the digits of
`m < 10^6` left-padded with zeros to width 6. -/
def fracPad (m : ℕ) : List Char :=
  List.replicate (6 - (natDigits m).length) '0' ++ natDigits m

/-- The character string of `n` micro-units rendered as a fixed
6-decimal number, e.g. `fixed6 2500000 = "2.500000".data`. -/
def fixed6 (n : ℕ) : List Char :=
  natDigits (n / 1000000) ++ '.' :: fracPad (n % 1000000)

/-- `q` scaled to micro-units and rounded half-up:
`⌊q * 10^6 + 1/2⌋`, written on numerator and denominator so that the
kernel can evaluate it (see `rnd6_eq_floor`).  CPython rounds the double
to 6 decimals with ties-to-even; on exact rationals the two agree except
on exact half-microunit ties, which no claim exercises. -/
def rnd6 (q : ℚ) : ℕ :=
  ((2000000 * q.num + (q.den : ℤ)) / (2 * (q.den : ℤ))).toNat

/-- `"{:f}".format(q)`: fixed 6-decimal formatting, sign first. -/
def format6 (q : ℚ) : String :=
  if q < 0 then String.mk ('-' :: fixed6 (rnd6 (Rat.divInt (-q.num) q.den)))
  else String.mk (fixed6 (rnd6 q))

/-- Lexicographic comparison of two character lists by code point: the
order Python uses to compare `str` values (as `sorted` does on the
distance column). -/
def lexLt : List Char → List Char → Bool
  | _, [] => false
  | [], _ :: _ => true
  | a :: as, b :: bs =>
    decide (a.toNat < b.toNat) || (a == b && lexLt as bs)

/-- Python `<=` on strings. -/
def strLe (a b : String) : Bool := ! lexLt b.data a.data

/-- The sort relation of `sorted(row, key=itemgetter(5))`: compare the
formatted distance strings. -/
def rowLe (a b : Row) : Prop := strLe a.dist b.dist = true

instance : DecidableRel rowLe :=
  fun a b => inferInstanceAs (Decidable (strLe a.dist b.dist = true))

/-- Encounter-order deduplication (`unique_pot_atoms` of
`FeffAtoms.__init__`). -/
def dedupApp (acc : List String) : List String → List String
  | [] => acc
  | s :: rest => dedupApp (if s ∈ acc then acc else acc ++ [s]) rest

/-- `FeffAtoms.pot_dict`: each distinct species symbol of the structure,
in encounter order, mapped to `index + 1`. -/
def potDict (struct : List FSite) : List (String × ℕ) :=
  ((dedupApp [] (struct.map FSite.sym)).enum).map (fun p => (p.2, p.1 + 1))

/-- The row built for one sphere entry (site and distance) around the
center `c`, with sequence number `i` (`row.append([...])`, source lines
511-520). -/
def mkRow (c : FSite) (e : FSite × ℚ) (ip i : ℕ) : Row :=
  { xs := format6 (qsub e.1.x c.x)
    ys := format6 (qsub e.1.y c.y)
    zs := format6 (qsub e.1.z c.z)
    ipot := ip
    atm := stripNonAlpha e.1.sym
    dist := format6 e.2
    num := i }

/-- The row-building loop of `get_string`: one row per sphere entry, in
sphere order; `none` models the `KeyError` of `self.pot_dict[atm]` for a
symbol missing from the potential dictionary. -/
def buildRows (pd : List (String × ℕ)) (c : FSite) :
    ℕ → List (FSite × ℚ) → Option (List Row)
  | _, [] => some []
  | i, e :: es =>
    match alookup pd (stripNonAlpha e.1.sym) with
    | none => none
    | some ip =>
      match buildRows pd c (i + 1) es with
      | none => none
      | some rs => some (mkRow c e ip i :: rs)

/-- `row_sorted[0][3] = 0`: force the potential index of the first
sorted row to 0. -/
def setIpot0 : List Row → List Row
  | [] => []
  | r :: rs => { r with ipot := 0 } :: rs

/-- The renumbering loop (`row_sorted[i][6] = i`). -/
def renumber : ℕ → List Row → List Row
  | _, [] => []
  | i, r :: rs => { r with num := i } :: renumber (i + 1) rs

/-- The data rows of the ATOMS table produced by
`FeffAtoms.get_string`, as a function of the structure, the absorbing
species, and the neighbour list returned by the external
`Structure.get_sites_in_sphere` (each entry a site paired with its
distance from the center; the order of this list is unspecified by the
collaborator).  `none` models the exceptions `get_string` can raise:
`ValueError` when the central species does not occur, `KeyError` on a
potential lookup failure, and `IndexError` on an empty neighbour list. -/
def shellRows (struct : List FSite) (central : String)
    (sphere : List (FSite × ℚ)) : Option (List Row) :=
  match (struct.map FSite.sym).findIdx? (fun s => s == central) with
  | none => none
  | some idx =>
    match struct.get? idx with
    | none => none
    | some c =>
      match buildRows (potDict struct) c 0 sphere with
      | none => none
      | some [] => none
      | some rows => some (renumber 0 (setIpot0 (List.insertionSort rowLe rows)))

/-- `qsub` agrees with subtraction on `ℚ`. -/
theorem qsub_eq (a b : ℚ) : qsub a b = a - b := by
  have hda : ((a.den : ℚ)) ≠ 0 := by positivity
  have hdb : ((b.den : ℚ)) ≠ 0 := by positivity
  have ha : ((a.num : ℚ)) = a * (a.den : ℚ) := (div_eq_iff hda).mp (Rat.num_div_den a)
  have hb : ((b.num : ℚ)) = b * (b.den : ℚ) := (div_eq_iff hdb).mp (Rat.num_div_den b)
  unfold qsub
  rw [Rat.divInt_eq_div]
  push_cast
  field_simp
  rw [ha, hb]
  ring

/-- `qadd` agrees with addition on `ℚ`. -/
theorem qadd_eq (a b : ℚ) : qadd a b = a + b := by
  have hda : ((a.den : ℚ)) ≠ 0 := by positivity
  have hdb : ((b.den : ℚ)) ≠ 0 := by positivity
  have ha : ((a.num : ℚ)) = a * (a.den : ℚ) := (div_eq_iff hda).mp (Rat.num_div_den a)
  have hb : ((b.num : ℚ)) = b * (b.den : ℚ) := (div_eq_iff hdb).mp (Rat.num_div_den b)
  unfold qadd
  rw [Rat.divInt_eq_div]
  push_cast
  field_simp
  rw [ha, hb]
  ring

/-- `qmul` agrees with multiplication on `ℚ`. -/
theorem qmul_eq (a b : ℚ) : qmul a b = a * b := by
  have hda : ((a.den : ℚ)) ≠ 0 := by positivity
  have hdb : ((b.den : ℚ)) ≠ 0 := by positivity
  have ha : ((a.num : ℚ)) = a * (a.den : ℚ) := (div_eq_iff hda).mp (Rat.num_div_den a)
  have hb : ((b.num : ℚ)) = b * (b.den : ℚ) := (div_eq_iff hdb).mp (Rat.num_div_den b)
  unfold qmul
  rw [Rat.divInt_eq_div]
  push_cast
  field_simp
  rw [ha, hb]
  ring

/-- `rnd6` is the half-up rounding `⌊q * 10^6 + 1/2⌋` (as a natural
number; negative values clamp to 0, but `format6` never applies `rnd6`
to a negative value). -/
theorem rnd6_eq_floor (q : ℚ) : rnd6 q = (⌊q * 1000000 + 1 / 2⌋).toNat := by
  have hd : ((q.den : ℚ)) ≠ 0 := by positivity
  have ha : ((q.num : ℚ)) = q * (q.den : ℚ) := (div_eq_iff hd).mp (Rat.num_div_den q)
  have key : q * 1000000 + 1 / 2 =
      (((2000000 * q.num + (q.den : ℤ)) : ℤ) : ℚ) / (((2 * q.den : ℕ) : ℕ) : ℚ) := by
    push_cast
    field_simp
    rw [ha]
    ring
  unfold rnd6
  rw [key, Rat.floor_intCast_div_natCast]
  push_cast
  rfl

theorem lexLt_irrefl : ∀ l, lexLt l l = false := by
  intro l
  induction l with
  | nil => rfl
  | cons a as ih => simp [lexLt, Nat.lt_irrefl, ih]

theorem lexLt_asymm : ∀ a b, lexLt a b = true → lexLt b a = false := by
  intro a
  induction a with
  | nil =>
    intro b h
    cases b with
    | nil => simp [lexLt] at h
    | cons c cs => rfl
  | cons x xs ih =>
    intro b h
    cases b with
    | nil => simp [lexLt] at h
    | cons y ys =>
      simp only [lexLt, Bool.or_eq_true, Bool.and_eq_true, decide_eq_true_eq,
        beq_iff_eq] at h
      simp only [lexLt, Bool.or_eq_false_iff, Bool.and_eq_false_iff,
        decide_eq_false_iff_not, beq_eq_false_iff_ne, ne_eq]
      rcases h with h | ⟨rfl, h2⟩
      · constructor
        · omega
        · left; intro hyx; rw [hyx] at h; omega
      · constructor
        · omega
        · right; exact ih ys h2

theorem lexLt_trans : ∀ a b c, lexLt a b = true → lexLt b c = true →
    lexLt a c = true := by
  intro a
  induction a with
  | nil =>
    intro b c h1 h2
    cases b with
    | nil => simp [lexLt] at h1
    | cons y ys =>
      cases c with
      | nil => simp [lexLt] at h2
      | cons z zs => rfl
  | cons x xs ih =>
    intro b c h1 h2
    cases b with
    | nil => simp [lexLt] at h1
    | cons y ys =>
      cases c with
      | nil => simp [lexLt] at h2
      | cons z zs =>
        simp only [lexLt, Bool.or_eq_true, Bool.and_eq_true, decide_eq_true_eq,
          beq_iff_eq] at h1 h2 ⊢
        rcases h1 with h1 | ⟨rfl, h1'⟩
        · rcases h2 with h2 | ⟨rfl, h2'⟩
          · left; omega
          · left; exact h1
        · rcases h2 with h2 | ⟨rfl, h2'⟩
          · left; exact h2
          · right; exact ⟨rfl, ih ys zs h1' h2'⟩

theorem lexLt_tri : ∀ a b, lexLt a b = true ∨ lexLt b a = true ∨ a = b := by
  intro a
  induction a with
  | nil =>
    intro b
    cases b with
    | nil => right; right; rfl
    | cons c cs => left; rfl
  | cons x xs ih =>
    intro b
    cases b with
    | nil => right; left; rfl
    | cons y ys =>
      rcases Nat.lt_trichotomy x.toNat y.toNat with h | h | h
      · left; simp [lexLt, h]
      · have hxy : x = y := Char.eq_of_val_eq (UInt32.ext h)
        subst hxy
        rcases ih ys with h' | h' | h'
        · left; simp [lexLt, h']
        · right; left; simp [lexLt, h']
        · right; right; rw [h']
      · right; left; simp [lexLt, h]

theorem strLe_total (a b : String) : strLe a b = true ∨ strLe b a = true := by
  unfold strLe
  cases hba : lexLt b.data a.data
  · left; rfl
  · right
    rw [lexLt_asymm b.data a.data hba]
    rfl

theorem strLe_trans (a b c : String) (h1 : strLe a b = true)
    (h2 : strLe b c = true) : strLe a c = true := by
  unfold strLe at h1 h2 ⊢
  cases hca : lexLt c.data a.data
  · rfl
  · exfalso
    rcases lexLt_tri b.data c.data with h | h | h
    · have := lexLt_trans b.data c.data a.data h hca
      rw [this] at h1
      simp at h1
    · rw [h] at h2
      simp at h2
    · rw [h] at h1
      rw [hca] at h1
      simp at h1

instance : IsTotal Row rowLe :=
  ⟨fun a b => strLe_total a.dist b.dist⟩

instance : IsTrans Row rowLe :=
  ⟨fun a b c h1 h2 => strLe_trans a.dist b.dist c.dist h1 h2⟩

theorem natDigitsAux_ne_nil (fuel n : ℕ) (h : 1 ≤ fuel) :
    natDigitsAux fuel n ≠ [] := by
  cases fuel with
  | zero => omega
  | succ f =>
    unfold natDigitsAux
    by_cases hn : n < 10
    · simp [hn]
    · simp [hn]

theorem natDigitsAux_head_pos : ∀ fuel n, n < fuel → 1 ≤ n →
    ∀ c cs, natDigitsAux fuel n = c :: cs → 48 < c.toNat := by
  intro fuel
  induction fuel with
  | zero => intro n h; omega
  | succ f ih =>
    intro n hnf hn c cs heq
    unfold natDigitsAux at heq
    by_cases h10 : n < 10
    · rw [if_pos h10] at heq
      have hc : c = Nat.digitChar n := by
        injection heq with h1 _
        exact h1.symm
      subst hc
      interval_cases n <;> decide
    · rw [if_neg h10] at heq
      have hne : natDigitsAux f (n / 10) ≠ [] := by
        apply natDigitsAux_ne_nil
        omega
      cases hrec : natDigitsAux f (n / 10) with
      | nil => exact absurd hrec hne
      | cons c' cs' =>
        rw [hrec] at heq
        have hc : c = c' := by
          injection heq with h1 _
          exact h1.symm
        rw [hc]
        exact ih (n / 10) (by omega) (by omega) c' cs' hrec

theorem natDigitsAux_length_le : ∀ fuel k n, n < 10 ^ (k + 1) →
    (natDigitsAux fuel n).length ≤ k + 1 := by
  intro fuel
  induction fuel with
  | zero => intro k n _; simp [natDigitsAux]
  | succ f ih =>
    intro k n hn
    unfold natDigitsAux
    by_cases h10 : n < 10
    · simp [h10]
    · rw [if_neg h10]
      rw [List.length_append]
      simp only [List.length_cons, List.length_nil]
      cases k with
      | zero =>
        exfalso
        simp at hn
        omega
      | succ k' =>
        have : n / 10 < 10 ^ (k' + 1) := by
          have hp : (10:ℕ) ^ (k' + 1 + 1) = 10 ^ (k' + 1) * 10 := by ring
          rw [hp] at hn
          omega
        have := ih k' (n / 10) this
        omega

theorem lexLt_append_left : ∀ p a b, lexLt (p ++ a) (p ++ b) = lexLt a b := by
  intro p a b
  induction p with
  | nil => rfl
  | cons c cs ih =>
    show lexLt (c :: (cs ++ a)) (c :: (cs ++ b)) = lexLt a b
    simp [lexLt, Nat.lt_irrefl, ih]

/-- `"{:f}".format(0.0)` is `"0.000000"`. -/
theorem format6_zero : format6 0 = "0.000000" := by decide

/-- Any value at least `10^-6` rounds to at least one micro-unit. -/
theorem rnd6_ge_one (q : ℚ) (h : Rat.divInt 1 1000000 ≤ q) : 1 ≤ rnd6 q := by
  have hnum : (Rat.divInt 1 1000000).num = 1 := by decide
  have hden : ((Rat.divInt 1 1000000).den : ℤ) = 1000000 := by decide
  rw [Rat.le_def, hnum, hden] at h
  have hdp : 0 < q.den := q.den_pos
  have hnump : 1 ≤ q.num := by omega
  unfold rnd6
  have hD : (0:ℤ) < 2 * (q.den : ℤ) := by omega
  have hN : 2 * (q.den : ℤ) ≤ 2000000 * q.num + (q.den : ℤ) := by omega
  have h1 : 1 ≤ (2000000 * q.num + (q.den : ℤ)) / (2 * (q.den : ℤ)) := by
    have := Int.ediv_le_ediv hD hN
    rwa [Int.ediv_self (by omega)] at this
  omega

/-- The string `"0.000000"` is lexicographically below the fixed
6-decimal rendering of any positive micro-unit count. -/
theorem zero_lexLt_fixed6 (n : ℕ) (h : 1 ≤ n) :
    lexLt "0.000000".data (fixed6 n) = true := by
  have hz : "0.000000".data = '0' :: '.' :: List.replicate 6 '0' := by decide
  by_cases hb : n < 1000000
  · have hdiv : n / 1000000 = 0 := Nat.div_eq_of_lt hb
    have hmod : n % 1000000 = n := Nat.mod_eq_of_lt hb
    unfold fixed6
    rw [hdiv, hmod, hz]
    have h0 : natDigits 0 = ['0'] := by decide
    rw [h0]
    show lexLt (['0', '.'] ++ List.replicate 6 '0') (['0', '.'] ++ fracPad n) = true
    rw [lexLt_append_left]
    unfold fracPad
    obtain ⟨c, cs, hcs⟩ : ∃ c cs, natDigits n = c :: cs := by
      cases hnd : natDigits n with
      | nil => exact absurd hnd (natDigitsAux_ne_nil _ _ (by omega))
      | cons c cs => exact ⟨c, cs, rfl⟩
    have hlen : (natDigits n).length ≤ 6 :=
      natDigitsAux_length_le (n + 1) 5 n (by omega)
    have hsplit : List.replicate 6 '0' =
        List.replicate (6 - (natDigits n).length) '0' ++
          List.replicate ((natDigits n).length) '0' := by
      rw [← List.replicate_add]
      congr 1
      omega
    rw [hsplit, lexLt_append_left, hcs]
    have hhead : 48 < c.toNat := by
      apply natDigitsAux_head_pos (n + 1) n (by omega) h c cs
      exact hcs
    simp only [List.length_cons, List.replicate_succ]
    simp [lexLt, hhead]
  · unfold fixed6
    obtain ⟨c, cs, hcs⟩ : ∃ c cs, natDigits (n / 1000000) = c :: cs := by
      cases hnd : natDigits (n / 1000000) with
      | nil => exact absurd hnd (natDigitsAux_ne_nil _ _ (by omega))
      | cons c cs => exact ⟨c, cs, rfl⟩
    have hq : 1 ≤ n / 1000000 := by
      rw [Nat.le_div_iff_mul_le (by norm_num)]
      omega
    have hhead : 48 < c.toNat := by
      apply natDigitsAux_head_pos (n / 1000000 + 1) (n / 1000000) (by omega) hq c cs
      exact hcs
    rw [hcs, hz]
    show lexLt ('0' :: '.' :: List.replicate 6 '0')
      (c :: (cs ++ '.' :: fracPad (n % 1000000))) = true
    simp [lexLt, hhead]

/-- `"0.000000"` is strictly below the formatted string of any value at
least `10^-6`. -/
theorem zero_lexLt_format6 (q : ℚ) (h : Rat.divInt 1 1000000 ≤ q) :
    lexLt "0.000000".data (format6 q).data = true := by
  have hq0 : ¬ q < 0 := by
    apply not_lt.mpr
    apply le_trans _ h
    rw [Rat.divInt_eq_div]
    positivity
  unfold format6
  rw [if_neg hq0]
  exact zero_lexLt_fixed6 (rnd6 q) (rnd6_ge_one q h)

theorem dedupApp_mem : ∀ l acc (x : String), x ∈ acc ∨ x ∈ l →
    x ∈ dedupApp acc l := by
  intro l
  induction l with
  | nil =>
    intro acc x h
    rcases h with h | h
    · exact h
    · cases h
  | cons s rest ih =>
    intro acc x h
    unfold dedupApp
    apply ih
    rcases h with h | h
    · left
      by_cases hs : s ∈ acc
      · rw [if_pos hs]; exact h
      · rw [if_neg hs]; exact List.mem_append_left _ h
    · rcases List.mem_cons.mp h with rfl | h
      · left
        by_cases hs : x ∈ acc
        · rw [if_pos hs]; exact hs
        · rw [if_neg hs]; exact List.mem_append_right _ (by simp)
      · right; exact h

theorem potDict_keys (struct : List FSite) :
    (potDict struct).map Prod.fst = dedupApp [] (struct.map FSite.sym) := by
  unfold potDict
  rw [List.map_map]
  have h : (Prod.fst ∘ fun p : ℕ × String => (p.2, p.1 + 1)) = Prod.snd := rfl
  rw [h, List.enum_map_snd]

theorem alookup_isSome_of_mem_keys {α : Type} :
    ∀ (l : List (String × α)) (k : String), k ∈ l.map Prod.fst →
      (alookup l k).isSome = true := by
  intro l
  induction l with
  | nil => intro k h; cases h
  | cons p rest ih =>
    intro k h
    unfold alookup
    by_cases hk : p.1 = k
    · cases p; simp_all [alookup]
    · cases p with
      | mk k1 v1 =>
        simp only [List.map_cons, List.mem_cons] at h
        rcases h with h | h
        · exact absurd h.symm hk
        · simp only [alookup, if_neg hk]
          exact ih k h

theorem alookup_mem {α : Type} :
    ∀ (l : List (String × α)) (k : String) (v : α), alookup l k = some v →
      (k, v) ∈ l := by
  intro l
  induction l with
  | nil => intro k v h; cases h
  | cons p rest ih =>
    intro k v h
    cases p with
    | mk k1 v1 =>
      by_cases hk : k1 = k
      · subst hk
        unfold alookup at h
        rw [if_pos rfl] at h
        injection h with h
        rw [← h]
        exact List.mem_cons_self _ _
      · simp only [alookup, if_neg hk] at h
        exact List.mem_cons_of_mem _ (ih k v h)

theorem potDict_val_pos (struct : List FSite) (p : String × ℕ)
    (hp : p ∈ potDict struct) : 1 ≤ p.2 := by
  unfold potDict at hp
  rw [List.mem_map] at hp
  obtain ⟨q, _, rfl⟩ := hp
  omega

theorem buildRows_total (pd : List (String × ℕ)) (c : FSite) :
    ∀ (l : List (FSite × ℚ)) (i : ℕ),
      (∀ e ∈ l, (alookup pd (stripNonAlpha e.1.sym)).isSome = true) →
      ∃ rs, buildRows pd c i l = some rs := by
  intro l
  induction l with
  | nil => intro i _; exact ⟨[], rfl⟩
  | cons e es ih =>
    intro i h
    have he := h e (List.mem_cons_self _ _)
    obtain ⟨ip, hip⟩ := Option.isSome_iff_exists.mp he
    obtain ⟨rs, hrs⟩ := ih (i + 1) (fun e' he' => h e' (List.mem_cons_of_mem _ he'))
    exact ⟨mkRow c e ip i :: rs, by simp [buildRows, hip, hrs]⟩

theorem buildRows_length (pd : List (String × ℕ)) (c : FSite) :
    ∀ (l : List (FSite × ℚ)) (i : ℕ) rs, buildRows pd c i l = some rs →
      rs.length = l.length := by
  intro l
  induction l with
  | nil =>
    intro i rs h
    simp only [buildRows] at h
    rw [← Option.some_inj.mp h]
    rfl
  | cons e es ih =>
    intro i rs h
    simp only [buildRows] at h
    cases hip : alookup pd (stripNonAlpha e.1.sym) with
    | none => rw [hip] at h; cases h
    | some ip =>
      rw [hip] at h
      cases hrec : buildRows pd c (i + 1) es with
      | none => rw [hrec] at h; cases h
      | some rs' =>
        rw [hrec] at h
        rw [← Option.some_inj.mp h]
        simp [ih (i + 1) rs' hrec]

theorem buildRows_mem (pd : List (String × ℕ)) (c : FSite) :
    ∀ (l : List (FSite × ℚ)) (i : ℕ) rs, buildRows pd c i l = some rs →
      ∀ r ∈ rs, ∃ e ∈ l, ∃ ip j,
        alookup pd (stripNonAlpha e.1.sym) = some ip ∧ r = mkRow c e ip j := by
  intro l
  induction l with
  | nil =>
    intro i rs h r hr
    simp only [buildRows] at h
    rw [← Option.some_inj.mp h] at hr
    cases hr
  | cons e es ih =>
    intro i rs h r hr
    simp only [buildRows] at h
    cases hip : alookup pd (stripNonAlpha e.1.sym) with
    | none => rw [hip] at h; cases h
    | some ip =>
      rw [hip] at h
      cases hrec : buildRows pd c (i + 1) es with
      | none => rw [hrec] at h; cases h
      | some rs' =>
        rw [hrec] at h
        rw [← Option.some_inj.mp h] at hr
        rcases List.mem_cons.mp hr with rfl | hr'
        · exact ⟨e, List.mem_cons_self _ _, ip, i, hip, rfl⟩
        · obtain ⟨e', he', ip', j', hip', hr''⟩ := ih (i + 1) rs' hrec r hr'
          exact ⟨e', List.mem_cons_of_mem _ he', ip', j', hip', hr''⟩

theorem buildRows_mem_of_entry (pd : List (String × ℕ)) (c : FSite) :
    ∀ (l : List (FSite × ℚ)) (i : ℕ) rs, buildRows pd c i l = some rs →
      ∀ e ∈ l, ∃ ip j,
        alookup pd (stripNonAlpha e.1.sym) = some ip ∧ mkRow c e ip j ∈ rs := by
  intro l
  induction l with
  | nil => intro i rs _ e he; cases he
  | cons e0 es ih =>
    intro i rs h e he
    simp only [buildRows] at h
    cases hip : alookup pd (stripNonAlpha e0.1.sym) with
    | none => rw [hip] at h; cases h
    | some ip =>
      rw [hip] at h
      cases hrec : buildRows pd c (i + 1) es with
      | none => rw [hrec] at h; cases h
      | some rs' =>
        rw [hrec] at h
        rw [← Option.some_inj.mp h]
        rcases List.mem_cons.mp he with rfl | he'
        · exact ⟨ip, i, hip, List.mem_cons_self _ _⟩
        · obtain ⟨ip', j', hip', hmem⟩ := ih (i + 1) rs' hrec e he'
          exact ⟨ip', j', hip', List.mem_cons_of_mem _ hmem⟩

theorem renumber_length : ∀ (l : List Row) (i : ℕ),
    (renumber i l).length = l.length := by
  intro l
  induction l with
  | nil => intro i; rfl
  | cons r rs ih => intro i; simp [renumber, ih]

theorem renumber_map_num : ∀ (l : List Row) (i : ℕ),
    (renumber i l).map Row.num = List.range' i l.length := by
  intro l
  induction l with
  | nil => intro i; rfl
  | cons r rs ih =>
    intro i
    show Row.num { r with num := i } :: (renumber (i + 1) rs).map Row.num =
      List.range' i (rs.length + 1)
    rw [List.range'_succ, ih]

theorem renumber_countP_ipot : ∀ (l : List Row) (i : ℕ),
    (renumber i l).countP (fun r => r.ipot == 0) =
      l.countP (fun r => r.ipot == 0) := by
  intro l
  induction l with
  | nil => intro i; rfl
  | cons r rs ih =>
    intro i
    show List.countP _ ({ r with ipot := r.ipot, num := i } :: renumber (i + 1) rs) = _
    rw [List.countP_cons, List.countP_cons, ih]

theorem setIpot0_length : ∀ l : List Row, (setIpot0 l).length = l.length := by
  intro l
  cases l with
  | nil => rfl
  | cons r rs => rfl

theorem format6_qsub_self (a : ℚ) : format6 (qsub a a) = "0.000000" := by
  have h : qsub a a = 0 := by rw [qsub_eq]; exact sub_self a
  rw [h]
  exact format6_zero

/-- C1 (amended): for every structure holding the central species, every
radius admitting at least one site, and every order in which the
neighbour search may return the selected sites, provided every selected
site other than the center lies at distance at least `10^-6` from it
(so that no other distance formats to `"0.000000"`), the shell table has
row 0 equal to the center itself — potential index 0, distance
`"0.000000"`, recentered coordinates zero, the center's stripped species
symbol — exactly one row with potential index 0, and sequence numbers
exactly `0..N-1` in final row order, where `N` is the number of selected
sites.  (The unamended claim fails when another selected site ties the
center's formatted distance; see `shell_row0_coincident_not_center`.) -/
theorem shell_table_invariant (struct : List FSite) (central : String)
    (radius : ℚ) (sphere : List (FSite × ℚ)) (idx : ℕ) (c : FSite)
    (hidx : (struct.map FSite.sym).findIdx? (fun s => s == central) = some idx)
    (hc : struct.get? idx = some c)
    (hdist : ∀ e ∈ sphere, 0 ≤ e.2 ∧ e.2 ≤ radius ∧ qmul e.2 e.2 = sqdist e.1 c)
    (hcen : (c, (0 : ℚ)) ∈ sphere)
    (hzero : ∀ e ∈ sphere, e.2 = 0 → e = (c, 0))
    (hfar : ∀ e ∈ sphere, e.2 = 0 ∨ Rat.divInt 1 1000000 ≤ e.2)
    (hpot : ∀ e ∈ sphere, stripNonAlpha e.1.sym ∈ struct.map FSite.sym) :
    ∃ rows, shellRows struct central sphere = some rows ∧
      rows.length = sphere.length ∧
      (∃ r0 rest, rows = r0 :: rest ∧ r0.ipot = 0 ∧ r0.dist = "0.000000" ∧
        r0.num = 0 ∧ r0.atm = stripNonAlpha c.sym ∧
        r0.xs = "0.000000" ∧ r0.ys = "0.000000" ∧ r0.zs = "0.000000") ∧
      rows.countP (fun r => r.ipot == 0) = 1 ∧
      rows.map Row.num = List.range rows.length := by
  -- every potential lookup succeeds
  have hlook : ∀ e ∈ sphere,
      (alookup (potDict struct) (stripNonAlpha e.1.sym)).isSome = true := by
    intro e he
    apply alookup_isSome_of_mem_keys
    rw [potDict_keys]
    exact dedupApp_mem _ [] _ (Or.inr (hpot e he))
  obtain ⟨rows0, hrows0⟩ := buildRows_total (potDict struct) c sphere 0 hlook
  -- the center contributes a row with distance string "0.000000"
  obtain ⟨ipc, jc, hipc, hmemc⟩ :=
    buildRows_mem_of_entry (potDict struct) c sphere 0 rows0 hrows0 (c, 0) hcen
  have hrc_dist : (mkRow c (c, 0) ipc jc).dist = "0.000000" := format6_zero
  -- every row of rows0 has a positive computed potential index
  have hpos : ∀ r ∈ rows0, 1 ≤ r.ipot := by
    intro r hr
    obtain ⟨e, _, ip, j, hip, hreq⟩ :=
      buildRows_mem (potDict struct) c sphere 0 rows0 hrows0 r hr
    rw [hreq]
    exact potDict_val_pos struct _ (alookup_mem _ _ _ hip)
  -- the program output
  have hshell : shellRows struct central sphere =
      some (renumber 0 (setIpot0 (List.insertionSort rowLe rows0))) := by
    cases rows0 with
    | nil => exact absurd hmemc (List.not_mem_nil _)
    | cons a as =>
      simp only [shellRows, hidx, hc, hrows0]
  have hperm : (List.insertionSort rowLe rows0).Perm rows0 :=
    List.perm_insertionSort rowLe rows0
  have hsort : List.Sorted rowLe (List.insertionSort rowLe rows0) :=
    List.sorted_insertionSort rowLe rows0
  have hlen0 : rows0.length = sphere.length :=
    buildRows_length (potDict struct) c sphere 0 rows0 hrows0
  cases hs : List.insertionSort rowLe rows0 with
  | nil =>
    exfalso
    have : (mkRow c (c, 0) ipc jc) ∈ List.insertionSort rowLe rows0 :=
      hperm.mem_iff.mpr hmemc
    rw [hs] at this
    exact absurd this (List.not_mem_nil _)
  | cons r0 rest =>
    -- characterise the head of the sorted list
    have hr0mem : r0 ∈ rows0 := by
      apply hperm.mem_iff.mp
      rw [hs]
      exact List.mem_cons_self _ _
    obtain ⟨e, he, ip, j, hip, hr0eq⟩ :=
      buildRows_mem (potDict struct) c sphere 0 rows0 hrows0 r0 hr0mem
    have hr0dist : r0.dist = format6 e.2 := by rw [hr0eq]; rfl
    have hE : e = (c, 0) := by
      rcases hfar e he with hez | hefar
      · exact hzero e he hez
      · exfalso
        have hzl := zero_lexLt_format6 e.2 hefar
        have hrcmem : (mkRow c (c, 0) ipc jc) ∈ r0 :: rest := by
          rw [← hs]
          exact hperm.mem_iff.mpr hmemc
        rcases List.mem_cons.mp hrcmem with heq | hrest
        · have : format6 e.2 = "0.000000" := by
            rw [← hr0dist, ← heq]
            exact hrc_dist
          rw [this] at hzl
          rw [lexLt_irrefl] at hzl
          cases hzl
        · have hle : rowLe r0 (mkRow c (c, 0) ipc jc) := by
            have hsc := List.sorted_cons.mp (hs ▸ hsort)
            exact hsc.1 _ hrest
          unfold rowLe strLe at hle
          rw [hrc_dist, hr0dist] at hle
          rw [hzl] at hle
          cases hle
    rw [hE] at hr0eq
    -- the produced rows
    refine ⟨renumber 0 (setIpot0 (r0 :: rest)), by rw [hshell, hs], ?_, ?_, ?_, ?_⟩
    · -- length
      rw [renumber_length, setIpot0_length, ← hlen0, ← hs]
      exact hperm.length_eq
    · -- head row facts
      refine ⟨{ r0 with ipot := 0, num := 0 }, renumber 1 rest, rfl, rfl, ?_, rfl,
        ?_, ?_, ?_, ?_⟩
      · show r0.dist = "0.000000"
        rw [hr0eq]
        exact format6_zero
      · show r0.atm = stripNonAlpha c.sym
        rw [hr0eq]; rfl
      · show r0.xs = "0.000000"
        rw [hr0eq]
        exact format6_qsub_self c.x
      · show r0.ys = "0.000000"
        rw [hr0eq]
        exact format6_qsub_self c.y
      · show r0.zs = "0.000000"
        rw [hr0eq]
        exact format6_qsub_self c.z
    · -- exactly one row with potential index 0
      show List.countP _ (renumber 0 (setIpot0 (r0 :: rest))) = 1
      have hrest0 : rest.countP (fun r => r.ipot == 0) = 0 := by
        apply List.countP_eq_zero.mpr
        intro r hr
        have hrs : r ∈ rows0 := by
          apply hperm.mem_iff.mp
          rw [hs]
          exact List.mem_cons_of_mem _ hr
        have := hpos r hrs
        simp only [beq_iff_eq]
        omega
      rw [renumber_countP_ipot]
      show List.countP _ ({ r0 with ipot := 0 } :: rest) = 1
      rw [List.countP_cons, hrest0]
      rfl
    · -- sequence numbers are 0..N-1
      rw [renumber_map_num, renumber_length, List.range_eq_range']

/-- A cobalt absorber at the origin (concrete test site). -/
def coSite : FSite := ⟨"Co", 0, 0, 0⟩

/-- An oxygen site at distance 1 from the origin. -/
def o1Site : FSite := ⟨"O", 1, 0, 0⟩

/-- An oxygen site at distance 2 from the origin. -/
def o2Site : FSite := ⟨"O", 2, 0, 0⟩

/-- An oxygen site at distance 10 from the origin. -/
def o10Site : FSite := ⟨"O", 10, 0, 0⟩

/-- An oxygen site coincident with the origin. -/
def oZeroSite : FSite := ⟨"O", 0, 0, 0⟩

theorem shell_table_invariant_witness :
    ((coSite, (0 : ℚ)) ∈ [(coSite, (0 : ℚ)), (o1Site, 1)] ∧
      (∀ e ∈ [(coSite, (0 : ℚ)), (o1Site, 1)],
        e.2 = 0 ∨ Rat.divInt 1 1000000 ≤ e.2)) ∧
    (∃ rows, shellRows [coSite, o1Site] "Co" [(coSite, (0 : ℚ)), (o1Site, 1)] =
        some rows ∧
      rows.length = ([(coSite, (0 : ℚ)), (o1Site, 1)] : List (FSite × ℚ)).length ∧
      (∃ r0 rest, rows = r0 :: rest ∧ r0.ipot = 0 ∧ r0.dist = "0.000000" ∧
        r0.num = 0 ∧ r0.atm = stripNonAlpha coSite.sym ∧
        r0.xs = "0.000000" ∧ r0.ys = "0.000000" ∧ r0.zs = "0.000000") ∧
      rows.countP (fun r => r.ipot == 0) = 1 ∧
      rows.map Row.num = List.range rows.length) :=
  ⟨⟨by decide, by decide⟩,
    shell_table_invariant [coSite, o1Site] "Co" 2 [(coSite, 0), (o1Site, 1)] 0
      coSite (by decide) (by decide) (by decide) (by decide) (by decide)
      (by decide) (by decide)⟩

/-- C1 counterexample: the claim as stated fails on a structure with an
oxygen site coincident with the cobalt center when the neighbour search
returns the oxygen entry first (both admissible): row 0 of the table is
the oxygen site, not the center, although it is forced to potential
index 0. -/
theorem shell_row0_coincident_not_center :
    shellRows [coSite, oZeroSite] "Co" [(oZeroSite, 0), (coSite, 0)] =
      some [⟨"0.000000", "0.000000", "0.000000", 0, "O", "0.000000", 0⟩,
            ⟨"0.000000", "0.000000", "0.000000", 1, "Co", "0.000000", 1⟩] ∧
    "O" ≠ stripNonAlpha coSite.sym := by decide

/-- C2 (code bug): `get_string` sorts the rows by the formatted distance
STRING (`sorted(row, key=itemgetter(5))` on column 5, a `"{:f}"`
string), not by numeric distance, so with sites at distances 2 and 10
(both within the default radius 10) the 10-Angstrom row is placed
before the 2-Angstrom row: `"10.000000" < "2.000000"` lexicographically.
This contradicts the claimed ascending numeric order and the class's
own documentation ("ordered as expanding shells"). -/
theorem shell_rows_sorted_by_string_misorders_ten :
    shellRows [coSite, o2Site, o10Site] "Co"
        [(coSite, 0), (o2Site, 2), (o10Site, 10)] =
      some [⟨"0.000000", "0.000000", "0.000000", 0, "Co", "0.000000", 0⟩,
            ⟨"10.000000", "0.000000", "0.000000", 2, "O", "10.000000", 1⟩,
            ⟨"2.000000", "0.000000", "0.000000", 2, "O", "2.000000", 2⟩] ∧
    (2 : ℚ) < 10 := by
  constructor
  · decide
  · norm_num

/-- The three data rows produced for the Co/O/O example structure. -/
def threeSiteRows : List Row :=
  [⟨"0.000000", "0.000000", "0.000000", 0, "Co", "0.000000", 0⟩,
   ⟨"1.000000", "0.000000", "0.000000", 2, "O", "1.000000", 1⟩,
   ⟨"2.000000", "0.000000", "0.000000", 2, "O", "2.000000", 2⟩]

/-- C5 counterexample: for the three-site Co/O/O structure the potential
indices of the table are `[0, 2, 2]`, not `[0, 1, 1]`: `pot_dict` maps
the species in encounter order to `1..N` (Co to 1, O to 2), and only
row 0 is forced to 0. -/
theorem shell_three_site_ipots_not_011 :
    shellRows [coSite, o1Site, o2Site] "Co"
        [(coSite, 0), (o1Site, 1), (o2Site, 2)] = some threeSiteRows ∧
    threeSiteRows.map Row.ipot = [0, 2, 2] ∧
    ([0, 2, 2] : List ℕ) ≠ [0, 1, 1] := by decide

/-- C5 (amended): for the three-site structure (Co at the origin, O at
distances 1.0 and 2.0) with radius 2.5 — so the neighbour list holds
exactly the three sites, in any of the six possible orders — the table
has exactly 3 data rows ordered by distance, potential indices
`[0, 2, 2]` (both oxygen rows carrying the same index 2), and row 0
species `"Co"`. -/
theorem shell_three_site_table :
    shellRows [coSite, o1Site, o2Site] "Co"
        [(coSite, 0), (o1Site, 1), (o2Site, 2)] = some threeSiteRows ∧
    shellRows [coSite, o1Site, o2Site] "Co"
        [(coSite, 0), (o2Site, 2), (o1Site, 1)] = some threeSiteRows ∧
    shellRows [coSite, o1Site, o2Site] "Co"
        [(o1Site, 1), (coSite, 0), (o2Site, 2)] = some threeSiteRows ∧
    shellRows [coSite, o1Site, o2Site] "Co"
        [(o1Site, 1), (o2Site, 2), (coSite, 0)] = some threeSiteRows ∧
    shellRows [coSite, o1Site, o2Site] "Co"
        [(o2Site, 2), (coSite, 0), (o1Site, 1)] = some threeSiteRows ∧
    shellRows [coSite, o1Site, o2Site] "Co"
        [(o2Site, 2), (o1Site, 1), (coSite, 0)] = some threeSiteRows ∧
    threeSiteRows.length = 3 ∧
    threeSiteRows.map Row.ipot = [0, 2, 2] ∧
    threeSiteRows.map Row.atm = ["Co", "O", "O"] ∧
    threeSiteRows.map Row.dist = ["0.000000", "1.000000", "2.000000"] := by
  decide

/-- C3: `proc_val` classifies a key by membership in a fixed order:
list-capable first, then boolean, then float, then integer; for a key
in several class sets the earliest matching class produces the result
(each branch wrapped in the `except ValueError` fallback).  In
particular the list-capable check takes precedence over the boolean,
float and integer checks. -/
theorem proc_val_class_precedence (key val : String) :
    (key ∈ list_type_keys → proc_val key val = catchCap val (listBranch val)) ∧
    (key ∉ list_type_keys → key ∈ boolean_type_keys →
      proc_val key val = catchCap val (boolBranch val)) ∧
    (key ∉ list_type_keys → key ∉ boolean_type_keys → key ∈ float_type_keys →
      proc_val key val = catchCap val (floatBranch val)) ∧
    (key ∉ list_type_keys → key ∉ boolean_type_keys → key ∉ float_type_keys →
      key ∈ int_type_keys → proc_val key val = catchCap val (intBranch val)) := by
  refine ⟨?_, ?_, ?_, ?_⟩
  · intro h1
    unfold proc_val procValBody
    rw [if_pos h1]
    cases hb : listBranch val <;> rfl
  · intro h1 h2
    unfold proc_val procValBody
    rw [if_neg h1, if_pos h2]
    cases hb : boolBranch val <;> rfl
  · intro h1 h2 h3
    unfold proc_val procValBody
    rw [if_neg h1, if_neg h2, if_pos h3]
    cases hb : floatBranch val <;> rfl
  · intro h1 h2 h3 h4
    unfold proc_val procValBody
    rw [if_neg h1, if_neg h2, if_neg h3, if_pos h4]
    cases hb : intBranch val <;> rfl

theorem proc_val_class_precedence_witness :
    ("SCF" ∈ list_type_keys ∧ "SCF" ∈ float_type_keys) ∧
    proc_val "SCF" "7" = catchCap "7" (listBranch "7") :=
  ⟨⟨by decide, by decide⟩, (proc_val_class_precedence "SCF" "7").1 (by decide)⟩

/-- C4 counterexample: `proc_val("SCF", "7")` does not return the
integer 7 — `"SCF"` is in `VALID_FEFF_TAGS`, so the list branch runs
first. -/
theorem proc_val_scf_seven_not_int :
    proc_val "SCF" "7" ≠ Except.ok (FeffVal.int 7) := by decide

/-- C4 (amended): `proc_val("SCF", "7")` returns the one-element list
`[7]` whose sole element is the integer 7. -/
theorem proc_val_scf_seven_singleton_list :
    proc_val "SCF" "7" = Except.ok (FeffVal.list [Scalar.int 7]) := by decide

/-- C8: `proc_val("EXAFS", "3*1.5 2.0")` returns the list
`[1.5, 1.5, 1.5, 2.0]`: the `count*scalar` shorthand expands to three
copies of the float 1.5 and the plain token parses as the float 2.0,
concatenated in order. -/
theorem proc_val_exafs_repeat_list :
    proc_val "EXAFS" "3*1.5 2.0" =
      Except.ok (FeffVal.list
        [Scalar.float (Rat.divInt 3 2), Scalar.float (Rat.divInt 3 2),
         Scalar.float (Rat.divInt 3 2), Scalar.float 2]) := by decide

theorem alookup_map_replace {k : String} {v : FeffVal} :
    ∀ l : List (String × FeffVal), (alookup l k).isSome = true →
      alookup (l.map (fun p => if p.1 = k then (k, v) else p)) k = some v := by
  intro l
  induction l with
  | nil => intro h; cases h
  | cons p rest ih =>
    intro h
    obtain ⟨k1, v1⟩ := p
    by_cases hk : k1 = k
    · simp only [List.map_cons, if_pos hk]
      unfold alookup
      rw [if_pos rfl]
    · simp only [List.map_cons, if_neg hk]
      unfold alookup
      rw [if_neg hk]
      apply ih
      unfold alookup at h
      rw [if_neg hk] at h
      exact h

theorem alookup_append_single {k : String} {v : FeffVal} :
    ∀ l : List (String × FeffVal), alookup l k = none →
      alookup (l ++ [(k, v)]) k = some v := by
  intro l
  induction l with
  | nil =>
    intro _
    show alookup [(k, v)] k = some v
    unfold alookup
    rw [if_pos rfl]
  | cons p rest ih =>
    intro h
    obtain ⟨k1, v1⟩ := p
    unfold alookup at h
    by_cases hk : k1 = k
    · rw [if_pos hk] at h; cases h
    · rw [if_neg hk] at h
      show alookup ((k1, v1) :: (rest ++ [(k, v)])) k = some v
      unfold alookup
      rw [if_neg hk]
      exact ih h

theorem alookup_dictInsert_self (l : List (String × FeffVal)) (k : String)
    (v : FeffVal) : alookup (dictInsert l k v) k = some v := by
  unfold dictInsert
  by_cases h : (alookup l k).isSome = true
  · rw [if_pos h]
    exact alookup_map_replace l h
  · rw [if_neg h]
    apply alookup_append_single
    cases hl : alookup l k with
    | none => rfl
    | some w => rw [hl] at h; simp at h

/-- C6 counterexample: assigning `"1"` under the whitespace-only name
`"  "` does NOT fail: the pair is stored under the empty trimmed key
(the unknown-name check only warns), so a store can hold a key whose
trimmed name is empty. -/
theorem setitem_blank_key_stored :
    setItemE [] "  " "1" = Except.ok [("", FeffVal.str "1")] ∧
    alookup ([("", FeffVal.str "1")] : FT) "" = some (FeffVal.str "1") := by
  decide

/-- C6 (amended): for every store and every name whose trimmed form is
empty, assignment succeeds and stores the coerced value under the empty
key, which is then present in the store (only a non-fatal unknown-tag
warning is emitted). -/
theorem setitem_blank_key_accepted (store : FT) (key val : String)
    (h : pyStrip key = "") :
    ∃ v, setItemE store key val = Except.ok (dictInsert store "" v) ∧
      alookup (dictInsert store "" v) "" = some v := by
  have hpv : proc_val "" (pyStrip val) =
      Except.ok (FeffVal.str (pyCapitalize (pyStrip val))) := by
    unfold proc_val procValBody
    rw [if_neg (by decide : ¬ ("" ∈ list_type_keys)),
      if_neg (by decide : ¬ ("" ∈ boolean_type_keys)),
      if_neg (by decide : ¬ ("" ∈ float_type_keys)),
      if_neg (by decide : ¬ ("" ∈ int_type_keys))]
  refine ⟨FeffVal.str (pyCapitalize (pyStrip val)), ?_, ?_⟩
  · unfold setItemE
    rw [h, hpv]
    rfl
  · exact alookup_dictInsert_self store "" _

theorem setitem_blank_key_accepted_witness :
    pyStrip " \t " = "" ∧
    (∃ v, setItemE [("SCF", FeffVal.int 3)] " \t " "1" =
        Except.ok (dictInsert [("SCF", FeffVal.int 3)] "" v) ∧
      alookup (dictInsert [("SCF", FeffVal.int 3)] "" v) "" = some v) :=
  ⟨by decide, setitem_blank_key_accepted [("SCF", FeffVal.int 3)] " \t " "1"
    (by decide)⟩

theorem scalarEq_refl (a : Scalar) : scalarEq a a = true := by
  unfold scalarEq
  simp

theorem pyEq_refl (v : FeffVal) : pyEq v v = true := by
  cases v with
  | int z => simp [pyEq, feffValNumQ]
  | float q => simp [pyEq, feffValNumQ]
  | bool b => simp [pyEq, feffValNumQ]
  | str s => simp [pyEq, feffValNumQ]
  | list l =>
    simp only [pyEq, feffValNumQ]
    simp only [beq_self_eq_true, Bool.true_and]
    induction l with
    | nil => rfl
    | cons a as ih =>
      simp only [List.zip_cons_cons, List.all_cons, Bool.and_eq_true]
      exact ⟨scalarEq_refl a, ih⟩

theorem alookup_self_of_nodup :
    ∀ (l : List (String × FeffVal)), (l.map Prod.fst).Nodup →
      ∀ p ∈ l, alookup l p.1 = some p.2 := by
  intro l
  induction l with
  | nil => intro _ p hp; cases hp
  | cons q rest ih =>
    intro hnd p hp
    obtain ⟨k1, v1⟩ := q
    rw [List.map_cons, List.nodup_cons] at hnd
    rcases List.mem_cons.mp hp with rfl | hp'
    · unfold alookup
      rw [if_pos rfl]
    · unfold alookup
      by_cases hk : k1 = p.1
      · exfalso
        apply hnd.1
        rw [hk]
        exact List.mem_map.mpr ⟨p, hp', rfl⟩
      · rw [if_neg hk]
        exact ih hnd.2 p hp'

theorem alookup_isSome_of_mem {α : Type} (l : List (String × α)) (p : String × α)
    (hp : p ∈ l) : (alookup l p.1).isSome = true := by
  apply alookup_isSome_of_mem_keys
  exact List.mem_map.mpr ⟨p, hp, rfl⟩

theorem diffLoop1_self (S : FT) :
    ∀ l : List (String × FeffVal), (∀ p ∈ l, alookup S p.1 = some p.2) →
      diffLoop1 S l = (l, []) := by
  intro l
  induction l with
  | nil => intro _; rfl
  | cons p rest ih =>
    intro h
    obtain ⟨k1, v1⟩ := p
    have hl : alookup S k1 = some v1 := h (k1, v1) (List.mem_cons_self _ _)
    have hrec : diffLoop1 S rest = (rest, []) :=
      ih (fun q hq => h q (List.mem_cons_of_mem _ hq))
    unfold diffLoop1
    rw [hrec, hl]
    simp [pyEq_refl]

theorem diffLoop2_all_found (self s : FT) :
    ∀ l : List (String × FeffVal), (∀ p ∈ l, hasKeyFT s p.1 = true) →
      diffLoop2 self s [] l = [] := by
  intro l
  induction l with
  | nil => intro _; rfl
  | cons p rest ih =>
    intro h
    obtain ⟨k2, v2⟩ := p
    have hk : hasKeyFT s k2 = true := h (k2, v2) (List.mem_cons_self _ _)
    unfold diffLoop2
    rw [if_neg (by simp [hk])]
    exact ih (fun q hq => h q (List.mem_cons_of_mem _ hq))

/-- C9: for every store `S`, `S.diff(S)` returns the `Same` group
holding every key of `S` with its value (indeed, exactly `S`) and an
empty `Different` group. -/
theorem fefftags_diff_self (S : FT) (h : (S.map Prod.fst).Nodup) :
    diffFT S S = (S, []) := by
  have hself : ∀ p ∈ S, alookup S p.1 = some p.2 := alookup_self_of_nodup S h
  have h1 : diffLoop1 S S = (S, []) := diffLoop1_self S S hself
  have h2 : diffLoop2 S S [] S = [] := by
    apply diffLoop2_all_found
    intro p hp
    unfold hasKeyFT
    rw [hself p hp]
    rfl
  unfold diffFT
  rw [h1]
  show (S, diffLoop2 S S [] S) = (S, [])
  rw [h2]

theorem fefftags_diff_self_witness :
    (([("SCF", FeffVal.int 3), ("PRINT", FeffVal.list [Scalar.int 1])] : FT).map
        Prod.fst).Nodup ∧
    diffFT [("SCF", FeffVal.int 3), ("PRINT", FeffVal.list [Scalar.int 1])]
        [("SCF", FeffVal.int 3), ("PRINT", FeffVal.list [Scalar.int 1])] =
      ([("SCF", FeffVal.int 3), ("PRINT", FeffVal.list [Scalar.int 1])], []) :=
  ⟨by decide, fefftags_diff_self
    [("SCF", FeffVal.int 3), ("PRINT", FeffVal.list [Scalar.int 1])] (by decide)⟩

theorem alookup_map_replace_ne {k k2 : String} {v : FeffVal} (hne : ¬ k = k2) :
    ∀ l : List (String × FeffVal),
      alookup (l.map (fun p => if p.1 = k then (k, v) else p)) k2 =
        alookup l k2 := by
  intro l
  induction l with
  | nil => rfl
  | cons p rest ih =>
    obtain ⟨k1, v1⟩ := p
    by_cases hk : k1 = k
    · simp only [List.map_cons, if_pos hk]
      show alookup ((k, v) :: rest.map _) k2 = alookup ((k1, v1) :: rest) k2
      unfold alookup
      rw [if_neg hne, if_neg (by rw [hk]; exact hne)]
      exact ih
    · simp only [List.map_cons, if_neg hk]
      show alookup ((k1, v1) :: rest.map _) k2 = alookup ((k1, v1) :: rest) k2
      unfold alookup
      by_cases h12 : k1 = k2
      · rw [if_pos h12, if_pos h12]
      · rw [if_neg h12, if_neg h12]
        exact ih

theorem alookup_append_single_ne {k k2 : String} {v : FeffVal} (hne : ¬ k = k2) :
    ∀ l : List (String × FeffVal),
      alookup (l ++ [(k, v)]) k2 = alookup l k2 := by
  intro l
  induction l with
  | nil =>
    show alookup [(k, v)] k2 = alookup [] k2
    unfold alookup
    rw [if_neg hne]
    rfl
  | cons p rest ih =>
    obtain ⟨k1, v1⟩ := p
    show alookup ((k1, v1) :: (rest ++ [(k, v)])) k2 = _
    unfold alookup
    by_cases h12 : k1 = k2
    · rw [if_pos h12, if_pos h12]
    · rw [if_neg h12, if_neg h12]
      exact ih

theorem alookup_dictInsert_ne (l : List (String × FeffVal)) (k k2 : String)
    (v : FeffVal) (hne : ¬ k = k2) :
    alookup (dictInsert l k v) k2 = alookup l k2 := by
  unfold dictInsert
  by_cases h : (alookup l k).isSome = true
  · rw [if_pos h]
    exact alookup_map_replace_ne hne l
  · rw [if_neg h]
    exact alookup_append_single_ne hne l

theorem alookup_eq_none_of_not_mem_keys {α : Type} :
    ∀ (l : List (String × α)) (k : String), k ∉ l.map Prod.fst →
      alookup l k = none := by
  intro l
  induction l with
  | nil => intro k _; rfl
  | cons p rest ih =>
    intro k h
    obtain ⟨k1, v1⟩ := p
    simp only [List.map_cons, List.mem_cons] at h
    push_neg at h
    unfold alookup
    rw [if_neg (fun hh => h.1 hh.symm)]
    exact ih k h.2


theorem addLoop_cons_none (A : FT) (params : List (String × FeffVal))
    (k0 : String) (v0 : FeffVal) (rest : List (String × FeffVal))
    (hA : alookup A k0 = none) :
    addLoop A params ((k0, v0) :: rest) =
      addLoop A (dictInsert params k0 v0) rest := by
  have h0 : addLoop A params ((k0, v0) :: rest) =
      (match alookup A k0 with
        | some w => if pyEq v0 w = true
            then addLoop A (dictInsert params k0 v0) rest
            else Except.error PyErr.valueError
        | none => addLoop A (dictInsert params k0 v0) rest) := rfl
  rw [h0, hA]

theorem addLoop_cons_some (A : FT) (params : List (String × FeffVal))
    (k0 : String) (v0 : FeffVal) (rest : List (String × FeffVal))
    (w : FeffVal) (hA : alookup A k0 = some w) :
    addLoop A params ((k0, v0) :: rest) =
      (if pyEq v0 w = true then addLoop A (dictInsert params k0 v0) rest
       else Except.error PyErr.valueError) := by
  have h0 : addLoop A params ((k0, v0) :: rest) =
      (match alookup A k0 with
        | some w2 => if pyEq v0 w2 = true
            then addLoop A (dictInsert params k0 v0) rest
            else Except.error PyErr.valueError
        | none => addLoop A (dictInsert params k0 v0) rest) := rfl
  rw [h0, hA]

theorem alookup_cons_ne {α : Type} (k0 k : String) (v0 : α)
    (rest : List (String × α)) (hk : ¬ k0 = k) :
    alookup ((k0, v0) :: rest) k = alookup rest k := by
  show (if k0 = k then some v0 else alookup rest k) = alookup rest k
  rw [if_neg hk]

theorem alookup_cons_self {α : Type} (k0 : String) (v0 : α)
    (rest : List (String × α)) :
    alookup ((k0, v0) :: rest) k0 = some v0 := by
  show (if k0 = k0 then some v0 else alookup rest k0) = some v0
  rw [if_pos rfl]

theorem addLoop_ok (A : FT) :
    ∀ (B : List (String × FeffVal)) (params : List (String × FeffVal)),
      (B.map Prod.fst).Nodup →
      (∀ k v w, alookup A k = some w → alookup B k = some v →
        pyEq v w = true) →
      ∃ C, addLoop A params B = .ok C ∧
        ∀ k, alookup C k = (alookup B k).or (alookup params k) := by
  intro B
  induction B with
  | nil =>
    intro params _ _
    exact ⟨params, rfl, fun k => rfl⟩
  | cons p rest ih =>
    intro params hnd hcomp
    obtain ⟨k0, v0⟩ := p
    rw [List.map_cons, List.nodup_cons] at hnd
    have hB0 : alookup ((k0, v0) :: rest) k0 = some v0 :=
      alookup_cons_self k0 v0 rest
    have hrest_comp : ∀ k v w, alookup A k = some w → alookup rest k = some v →
        pyEq v w = true := by
      intro k v w hA hR
      apply hcomp k v w hA
      have hkmem : k ∈ rest.map Prod.fst :=
        List.mem_map.mpr ⟨(k, v), alookup_mem rest k v hR, rfl⟩
      have hk0 : ¬ k0 = k := fun hh => hnd.1 (hh ▸ hkmem)
      rw [alookup_cons_ne k0 k v0 rest hk0]
      exact hR
    have hrest_none : alookup rest k0 = none :=
      alookup_eq_none_of_not_mem_keys rest k0 hnd.1
    have hstep : addLoop A params ((k0, v0) :: rest) =
        addLoop A (dictInsert params k0 v0) rest := by
      cases hA : alookup A k0 with
      | none => exact addLoop_cons_none A params k0 v0 rest hA
      | some w =>
        rw [addLoop_cons_some A params k0 v0 rest w hA]
        rw [if_pos (hcomp k0 v0 w hA hB0)]
    obtain ⟨C, hC, hCk⟩ := ih (dictInsert params k0 v0) hnd.2 hrest_comp
    refine ⟨C, by rw [hstep, hC], fun k => ?_⟩
    rw [hCk k]
    by_cases hk : k0 = k
    · subst hk
      rw [hrest_none, hB0, alookup_dictInsert_self]
      rfl
    · rw [alookup_cons_ne k0 k v0 rest hk,
        alookup_dictInsert_ne params k0 k v0 hk]

theorem addLoop_error (A : FT) :
    ∀ (B : List (String × FeffVal)) (params : List (String × FeffVal)),
      (∃ k v w, alookup A k = some w ∧ alookup B k = some v ∧
        pyEq v w = false) →
      addLoop A params B = .error .valueError := by
  intro B
  induction B with
  | nil =>
    intro params h
    obtain ⟨k, v, w, _, hB, _⟩ := h
    cases hB
  | cons p rest ih =>
    intro params h
    obtain ⟨k, v, w, hA, hB, hpe⟩ := h
    obtain ⟨k0, v0⟩ := p
    by_cases hk : k0 = k
    · subst hk
      rw [alookup_cons_self k0 v0 rest] at hB
      injection hB with hB
      subst hB
      rw [addLoop_cons_some A params k0 v0 rest w hA]
      rw [if_neg (by rw [hpe]; exact Bool.false_ne_true)]
    · rw [alookup_cons_ne k0 k v0 rest hk] at hB
      cases hA0 : alookup A k0 with
      | none =>
        rw [addLoop_cons_none A params k0 v0 rest hA0]
        exact ih (dictInsert params k0 v0) ⟨k, v, w, hA, hB, hpe⟩
      | some w0 =>
        rw [addLoop_cons_some A params k0 v0 rest w0 hA0]
        by_cases hpe0 : pyEq v0 w0 = true
        · rw [if_pos hpe0]
          exact ih (dictInsert params k0 v0) ⟨k, v, w, hA, hB, hpe⟩
        · rw [if_neg hpe0]

/-- C7: merging two stores with `A + B` succeeds whenever every key
present in both holds `==`-equal values, returning a store whose every
key resolves to `B`'s value if present there and to `A`'s otherwise
(so one-sided keys pass through unchanged, and overlapping keys hold
the common value); and it raises `ValueError` whenever some key is
present in both with `!=` values. -/
theorem fefftags_add_merge_spec (A B : FT)
    (hB : (B.map Prod.fst).Nodup) :
    ((∀ k v w, alookup A k = some w → alookup B k = some v →
        pyEq v w = true) →
      ∃ C, addFT A B = .ok C ∧
        ∀ k, alookup C k = (alookup B k).or (alookup A k)) ∧
    ((∃ k v w, alookup A k = some w ∧ alookup B k = some v ∧
        pyEq v w = false) →
      addFT A B = .error .valueError) := by
  constructor
  · intro hcomp
    exact addLoop_ok A B A hB hcomp
  · intro hconf
    exact addLoop_error A B A hconf

theorem fefftags_add_merge_spec_witness :
    ((([("SCF", FeffVal.int 1), ("PRINT", FeffVal.int 2)] : FT).map
        Prod.fst).Nodup ∧
      pyEq (FeffVal.int 5) (FeffVal.int 1) = false) ∧
    addFT [("SCF", FeffVal.int 1)] [("SCF", FeffVal.int 5), ("PRINT", FeffVal.int 2)] =
      .error .valueError := by
  constructor
  · constructor
    · decide
    · decide
  · apply (fefftags_add_merge_spec [("SCF", FeffVal.int 1)]
      [("SCF", FeffVal.int 5), ("PRINT", FeffVal.int 2)] (by decide)).2
    exact ⟨"SCF", FeffVal.int 5, FeffVal.int 1, by decide, by decide, by decide⟩

/-- C10: `proc_val` is total on string inputs: for every key and value
it returns a value and never lets an exception escape — whenever the
`try` body raises (numeric, list, or the boolean branch's own
`ValueError`), the handler returns the capitalized raw text instead. -/
theorem proc_val_total_and_swallows (key val : String) :
    (∃ v, proc_val key val = Except.ok v) ∧
    (∀ e, procValBody key val = Except.error e →
      proc_val key val = Except.ok (FeffVal.str (pyCapitalize val))) := by
  constructor
  · unfold proc_val
    cases procValBody key val with
    | ok o =>
      cases o with
      | some v => exact ⟨v, rfl⟩
      | none => exact ⟨FeffVal.str (pyCapitalize val), rfl⟩
    | error e => exact ⟨FeffVal.str (pyCapitalize val), rfl⟩
  · intro e he
    unfold proc_val
    rw [he]

theorem proc_val_total_and_swallows_witness :
    procValBody "SCF" "x x" = Except.error PyErr.valueError ∧
    proc_val "SCF" "x x" = Except.ok (FeffVal.str "X x") := by
  constructor
  · decide
  · have h := (proc_val_total_and_swallows "SCF" "x x").2 PyErr.valueError
      (by decide)
    rw [h]
    decide
